import Mathlib

/-!
Verification development for the shaman content-addressed file-inventory tool.

Byte strings of the Go source (paths, hashes, hex fields, record lines) are
modelled as lists of characters: Go iterates strings by rune, and bytewise
UTF-8 ordering coincides with codepoint ordering, so Go string comparison
(`<` on strings) is the lexicographic order on these lists.

The definitions below are shallow embeddings of the functions in `cmd/`:
`storeLine` / `restoreLine` (the path codec), `splitSSFLine` and
`ssfCollectRead` (consolidation), the `upd` merge-join of `update`, the
`watchLoop` event dispatch of `detect`, `getFileSha256` (the hasher),
`walkTreeToChannel` (the tree walker), the `ano` pipeline (anonymiser) and
`getSSFs` (manifest-name validation).
-/

namespace Shaman

/-- Byte strings: Go strings iterated as runes. -/
abbrev Str := List Char

/-- Lexicographic strict order on byte strings, the order Go's `<` on
strings computes (bytewise, equivalently codepointwise for UTF-8). -/
def strLtB : Str → Str → Bool
  | [], [] => false
  | [], _ :: _ => true
  | _ :: _, [] => false
  | a :: as, b :: bs => if a < b then true else if b < a then false else strLtB as bs

/-! ### Path codec (`storeLine` / `restoreLine`, cmd/shared.go)

`storeLine` encodes a filename for storage on one line of an SSF record:
runes below 32 become a backslash-x escape with two lowercase hex digits, a
literal backslash doubles, everything else passes through.  `restoreLine`
is, per its own doc comment, "designed as the identity function to
storeLine", but the source notes it "only reverses CR and LF. *FIXME*": it
textually replaces the three escapes for 0x0a, 0x0c, 0x0d and the doubled
backslash, in that order, and nothing else. -/

/-- Lowercase hex digit for a value below 16 (Go `%02x` formatting). -/
def hexDigit (n : Nat) : Char :=
  if n < 10 then Char.ofNat ('0'.toNat + n) else Char.ofNat ('a'.toNat + (n - 10))

/-- Encoding of a single rune by `storeLine` (cmd/shared.go). -/
def storeLineChar (c : Char) : Str :=
  if c.toNat < 32 then ['\\', 'x', hexDigit (c.toNat / 16), hexDigit (c.toNat % 16)]
  else if c = '\\' then ['\\', '\\']
  else [c]

/-- The `storeLine` path encoder of cmd/shared.go. -/
def storeLine (s : Str) : Str := s.flatMap storeLineChar

/-- Fuelled scanner behind `replaceAll`.  Each step consumes at least one
character of `s` (the patterns the source passes are nonempty), so fuel
equal to the length of `s` is always sufficient; the fuel only makes the
recursion structural. -/
def replaceAllF (pat rep : Str) : Nat → Str → Str
  | 0, s => s
  | _ + 1, [] => []
  | fuel + 1, c :: rest =>
    if pat ≠ [] ∧ pat.isPrefixOf (c :: rest) then
      rep ++ replaceAllF pat rep fuel ((c :: rest).drop pat.length)
    else
      c :: replaceAllF pat rep fuel rest

/-- Go's `strings.Replace(s, pat, rep, -1)`: replace every non-overlapping
occurrence of `pat`, scanning left to right.  An empty pattern returns the
string unchanged (the source never passes one). -/
def replaceAll (pat rep s : Str) : Str := replaceAllF pat rep s.length s

/-- The `restoreLine` path decoder of cmd/shared.go: replaces the escapes
for LF, FF, CR and the doubled backslash, in the source's order, and leaves
every other escape sequence as text. -/
def restoreLine (s : Str) : Str :=
  let s1 := replaceAll ['\\', 'x', '0', 'a'] ['\x0a'] s
  let s2 := replaceAll ['\\', 'x', '0', 'c'] ['\x0c'] s1
  let s3 := replaceAll ['\\', 'x', '0', 'd'] ['\x0d'] s2
  replaceAll ['\\', '\\'] ['\\'] s3

/-! ### Record splitting and consolidation (`splitSSFLine`, `ssfCollectRead`,
cmd/shared.go, driven by `con` in cmd/consolidate.go)

`splitSSFLine` cuts a format-5 record at its first space into the fixed-width
fields; a line with no space yields empty strings (the caller reports it as a
corrupt line).  Go would panic if a line with a space were shorter than the
slice bounds; such inputs do not occur below, and the total `take`/`drop`
operations stand in for the slicing.  `ssfCollectRead` folds the lines of a
manifest into a hash-keyed dictionary: for formats 2 and 3 a stored modtime
is kept when it is lexicographically smaller than the incoming one and
overwritten otherwise. -/

/-- Go `splitSSFLine` (cmd/shared.go): `(id, shab64, modtime, length, name)`.
Empty strings when the line holds no space, as in the source. -/
def splitSSFLine (s : Str) : Str × Str × Str × Str × Str :=
  let pos := s.findIdx (fun c => c = ' ')
  if pos = s.length then ([], [], [], [], [])
  else (s.take pos, s.take 43, (s.drop 43).take 8, (s.drop 51).take (pos - 51), s.drop (pos + 2))

/-- Lookup in the model of a Go `map[string]string`. -/
def mapFind (m : List (Str × Str)) (k : Str) : Option Str :=
  (m.find? (fun p => p.1 == k)).map (fun p => p.2)

/-- Store into the model of a Go `map[string]string`. -/
def mapInsert (m : List (Str × Str)) (k v : Str) : List (Str × Str) :=
  if (m.find? (fun p => p.1 == k)).isSome then
    m.map (fun p => if p.1 == k then (k, v) else p)
  else
    m ++ [(k, v)]

/-- One line of `ssfCollectRead` (cmd/shared.go): comments and blanks are
dropped, corrupt lines ignored, and the switch on the output format stores
an empty value, the earliest modtime, or the earliest modtime with its
size.  The keep test is exactly the source's `ok && val < modtime`. -/
def collectLine (format : Nat) (hits : List (Str × Str)) (s : Str) : List (Str × Str) :=
  if s = [] ∨ s.take 1 = ['#'] then hits
  else
    let f := splitSSFLine s
    let shab64 := f.2.1
    let modtime := f.2.2.1
    let size := f.2.2.2.1
    if shab64 = [] then hits
    else if format = 1 then mapInsert hits shab64 []
    else if format = 2 then
      match mapFind hits shab64 with
      | some val => if strLtB val modtime then hits else mapInsert hits shab64 modtime
      | none => mapInsert hits shab64 modtime
    else if format = 3 then
      match mapFind hits shab64 with
      | some val =>
        if strLtB (val.take 8) modtime then hits else mapInsert hits shab64 (modtime ++ size)
      | none => mapInsert hits shab64 (modtime ++ size)
    else hits

/-- Go `ssfCollectRead` (cmd/shared.go): fold the manifest's lines into the
hash-keyed scoreboard that `con` then writes out in ascending key order. -/
def ssfCollectRead (format : Nat) (lines : List Str) : List (Str × Str) :=
  lines.foldl (collectLine format) []

/-- The 1980 modtime threshold `0x12ceec80` the specification names for
consolidation (cmd/consolidate.go documents it; written as its 8 lowercase
hex characters, the form modtimes take in records). -/
def modtime1980 : Str := "12ceec80".data

/-! ### Manifest-name validation (`getSSFs`, cmd/shared.go)

Every verb that takes manifest filenames passes its argument list through
`getSSFs` before opening any manifest for content.  For each name the source
aborts with exit code 6 when the name is shorter than 5 characters or does
not end in ".ssf"; otherwise it records the name together with an existence
probe (an open/close that reads no content, modelled by the predicate
`fs`).  `Except.error 6` models `abort(6, ...)`, which prints the reason and
exits with code 6. -/

/-- The required manifest suffix. -/
def dotSSF : Str := ".ssf".data

/-- Go `getSSFs` (cmd/shared.go). -/
def getSSFs (fs : Str → Bool) : List Str → Except Nat (List (Str × Bool))
  | [] => .ok []
  | fn :: rest =>
    if fn.length < 5 then .error 6
    else if fn.drop (fn.length - 4) ≠ dotSSF then .error 6
    else
      match getSSFs fs rest with
      | .ok l => .ok ((fn, fs fn) :: l)
      | .error e => .error e

/-! ### Detector event dispatch (`watchLoop`, `detectTriggered`, cmd/detect.go)

The monitor phase's background worker reads from the watcher's error and
event channels.  `DetAction` records what one delivery makes the worker do;
`abortRun rc` is the centralised `abort(rc, ...)`, i.e. process exit, and
`setDetected` is the assignment `watchedFileDetected = true`. -/

/-- Outcome of dispatching one delivery in the detector's monitor loop. -/
inductive DetAction where
  | leave
  | printError
  | abortRun (rc : Nat)
  | checkEntity (name : Str)
  | checkFile (name : Str)
  | ignore
  | setDetected
deriving DecidableEq, Repr

/-- One delivery to `watchLoop`: a closed error channel, an error value, a
closed event channel, or a filesystem event with its operator string. -/
inductive WatchMsg where
  | errorsClosed
  | errorMsg
  | eventsClosed
  | fsEvent (op : Str) (name : Str)

/-- Go `watchLoop` (cmd/detect.go), one iteration of its select/switch:
a closed Errors channel returns from the loop; a closed Events channel is
`abort(1, "Encountered monitoring failure")`; CREATE and RENAME stat-and-
check the entity, WRITE hashes the file, CHMOD and REMOVE are ignored, and
any other operator is `abort(1, ... (failsafe))`. -/
def watchLoopStep : WatchMsg → DetAction
  | .errorsClosed => .leave
  | .errorMsg => .printError
  | .eventsClosed => .abortRun 1
  | .fsEvent op name =>
    if op = "CREATE".data then .checkEntity name
    else if op = "WRITE".data then .checkFile name
    else if op = "CHMOD".data then .ignore
    else if op = "REMOVE".data then .ignore
    else if op = "RENAME".data then .checkEntity name
    else .abortRun 1

/-- Go `detectTriggered` (cmd/detect.go): without a health-check port the
process aborts with exit code 2; with one, the detected flag is set. -/
def detectTriggered (cliCheck : Nat) : DetAction :=
  if cliCheck = 0 then .abortRun 2 else .setDetected

/-! ### Hasher (`getFileSha256`, cmd/shared.go)

The SHA-256 computation itself is external (`crypto/sha256`) and appears as
the parameter `hash`; the filesystem appears as a partial map from names to
contents, `none` standing for a failed open or read.  `binsha` is the array
type `[32]byte`: Go's conversion from a slice to that array type panics when
the slice is shorter than 32 bytes, which is what both error returns do to
the nil `binarySHASlice`. -/

/-- Result of running a Go function that can panic. -/
inductive GoRes (α : Type) where
  | ok (val : α)
  | panicked (msg : Str)
deriving DecidableEq, Repr

/-- Go slice-to-`[32]byte` conversion: panics below length 32. -/
def sliceToBinsha (l : List Nat) : GoRes (List Nat) :=
  if l.length = 32 then .ok l else .panicked "cannot convert slice to array".data

/-- The standard Base64 alphabet. -/
def b64Alphabet : Str :=
  "ABCDEFGHIJKLMNOPQRSTUVWXYZabcdefghijklmnopqrstuvwxyz0123456789+/".data

/-- Character of the standard Base64 alphabet at a 6-bit index. -/
def b64CharOf (n : Nat) : Char := b64Alphabet.getD n '?'

/-- Standard Base64 encoding with padding (`encoding/base64` StdEncoding). -/
def b64Encode : List Nat → Str
  | [] => []
  | [b1] => [b64CharOf (b1 / 4), b64CharOf (b1 % 4 * 16), '=', '=']
  | [b1, b2] => [b64CharOf (b1 / 4), b64CharOf (b1 % 4 * 16 + b2 / 16), b64CharOf (b2 % 16 * 4), '=']
  | b1 :: b2 :: b3 :: rest =>
    b64CharOf (b1 / 4) :: b64CharOf (b1 % 4 * 16 + b2 / 16) ::
      b64CharOf (b2 % 16 * 4 + b3 / 64) :: b64CharOf (b3 % 64) :: b64Encode rest

/-- Go `getFileSha256` (cmd/shared.go).  The triple's last component models
the returned error value (`true` = non-nil).  On an open or read failure the
source converts the still-nil slice to `binsha`, so the function panics
before the error can reach the caller; the impossible-length branch returns
an empty string with the (nil) error, as written. -/
def getFileSha256 (hash : List Nat → List Nat) (fsys : Str → Option (List Nat))
    (fn : Str) : GoRes (List Nat × Str × Bool) :=
  match fsys fn with
  | none =>
    match sliceToBinsha [] with
    | .ok a => .ok (a, [], true)
    | .panicked m => .panicked m
  | some content =>
    let sum := hash content
    let base64SHA := b64Encode sum
    if base64SHA.length ≠ 44 ∨ base64SHA.drop 43 ≠ ['='] then .ok (sum, [], false)
    else .ok (sum, base64SHA.take 43, false)

/-! ### Update finish: output name, atomic replace and exit code
(`upd`, cmd/detect.go lines 936-1127)

`updOutputName` is the source's three-way switch on the argument count and
the overwrite flag: a dry run writes nowhere (empty name), overwrite writes
to the input name plus ".temp", and two files write to the second.
`updFinish` is the tail after the merge loop: flush, then under overwrite
either discard the temporary (zero changes) or unlink the input and rename
the temporary over it and exit 1; every other path falls through to the
explicit final exit 0. -/

/-- File-system actions the finish of `upd` can take. -/
inductive FileOp where
  | flush
  | removeFile (fn : Str)
  | renameFile (src dst : Str)
  | exitProc (rc : Nat)
deriving DecidableEq, Repr

/-- The ".temp" suffix used for the atomic replace. -/
def tempSuffix : Str := ".temp".data

/-- The output-name switch of `upd` (cmd/detect.go): `none` models the
"should not happen" `abort(3, ...)` arm. -/
def updOutputName (num : Nat) (overwrite : Bool) (fnr second : Str) : Option Str :=
  if num = 1 ∧ overwrite = false then some []
  else if num = 1 ∧ overwrite = true then some (fnr ++ tempSuffix)
  else if num = 2 then some second
  else none

/-- The tail of `upd` after the merge loop (cmd/detect.go): the operations
run, in order, up to the process exit that ends them. -/
def updFinish (fnr fnw : Str) (amWriting overwrite grand dupes : Bool)
    (nchanges : Nat) : List FileOp :=
  if amWriting then
    FileOp.flush ::
      (if overwrite then
        (if nchanges = 0 then [FileOp.removeFile fnw, FileOp.exitProc 0]
         else if 0 < nchanges then
           [FileOp.removeFile fnr, FileOp.renameFile fnw fnr, FileOp.exitProc 1]
         else if grand ∨ dupes then [FileOp.exitProc 0]
         else [FileOp.exitProc 0])
       else [FileOp.exitProc 0])
  else [FileOp.exitProc 0]

/-- The process exit code of a finish sequence: the first exit reached. -/
def exitCodeOf : List FileOp → Nat
  | [] => 0
  | FileOp.exitProc rc :: _ => rc
  | _ :: rest => exitCodeOf rest

/-- Whether a finish sequence writes to, removes, or renames onto `fn`. -/
def touchesFile (ops : List FileOp) (fn : Str) : Bool :=
  ops.any fun op =>
    match op with
    | FileOp.removeFile f => f == fn
    | FileOp.renameFile _ dst => dst == fn
    | _ => false

/-! ### Update merge loop (`upd`, cmd/detect.go lines 982-1083)

The live walk reaches `upd` through a channel of `triplex` values;
`getNextTriplex` returns empty strings once the channel is closed, which is
how the loop detects exhaustion.  The manifest side is the scanner's lines.
One `UpdEv` is recorded per `writeRecord` call (its tag, the hash, modtime,
size and name passed, and the change-flag string) and per invalid manifest
line (which the source deletes, incrementing `ndel` without a record).
`writeRecord` itself (cmd/writessf.go) emits a line for every tag except
`D` and increments the matching counter; the counters are recovered from
the event list by `updCounters`. -/

/-- A `(filename, modtime, size)` tuple as served by the walker channel,
with modtime and size in the hex text form `getNextTriplex` produces. -/
structure Triplex where
  name : Str
  modt : Str
  size : Str
deriving DecidableEq, Repr

/-- The value `getNextTriplex` yields on a closed channel. -/
def emptyTriplex : Triplex := ⟨[], [], []⟩

/-- Go `getNextTriplex` (cmd/detect.go): the next live entry, or empty
strings when the channel is exhausted. -/
def getNextTriplex : List Triplex → Triplex × List Triplex
  | [] => (emptyTriplex, [])
  | t :: ts => (t, ts)

/-- One observable event of an update run: a `writeRecord` call or an
invalid manifest line that the source deletes. -/
inductive UpdEv where
  | record (tag : Char) (shab64 modt size name flags : Str)
  | badline
deriving DecidableEq, Repr

/-- The inner loop of step 2/5 of `upd`: emit `N` records while the live
name sorts before the current manifest name, stopping early when the
channel is exhausted (the source's `break` on an empty name). -/
def updNewLoop (t : Triplex) (ts : List Triplex) (ssfName : Str) :
    List UpdEv × Triplex × List Triplex :=
  if strLtB t.name ssfName then
    match ts with
    | [] => ([UpdEv.record 'N' [] t.modt t.size t.name []], emptyTriplex, [])
    | t2 :: ts2 =>
      if t2.name = [] then ([UpdEv.record 'N' [] t.modt t.size t.name []], t2, ts2)
      else
        let r := updNewLoop t2 ts2 ssfName
        (UpdEv.record 'N' [] t.modt t.size t.name [] :: r.1, r.2)
  else ([], t, ts)

/-- The final drain loop of step 5/5 of `upd`: emit `N` for every remaining
live entry. -/
def updNewAll (t : Triplex) (ts : List Triplex) : List UpdEv :=
  if t.name = [] then []
  else
    match ts with
    | [] => [UpdEv.record 'N' [] t.modt t.size t.name []]
    | t2 :: ts2 => UpdEv.record 'N' [] t.modt t.size t.name [] :: updNewAll t2 ts2

/-- Step 5/5 of `upd`: after the scanner loop ends (normally or through the
step-1/5 `break`), refill once if the pending entry is empty, then drain
the channel as `N` records. -/
def updDrain (t : Triplex) (ts : List Triplex) : List UpdEv :=
  if t.name = [] then
    let r := getNextTriplex ts
    updNewAll r.1 r.2
  else updNewAll t ts

/-- The scanner loop of `upd` (cmd/detect.go lines 985-1083), one manifest
line at a time against the pending live entry: skip blanks and comments,
delete invalid lines, `break` to the drain when the live stream is already
exhausted (step 1/5), emit `N` for live names sorting earlier (2/5), on a
name match emit `U`, or rehash and emit `C`/`V` with the `T`/`S`/`H` flags
(3/5), and emit `D` when the live stream has moved past the manifest name
(4/5). -/
def updLoop (hash : Str → Str) (rehash : Bool) :
    List Str → Triplex → List Triplex → List UpdEv
  | [], trip, trips => updDrain trip trips
  | s :: rest, trip, trips =>
    if s = [] ∨ s.take 1 = ['#'] then updLoop hash rehash rest trip trips
    else
      let pos := s.findIdx (fun c => c = ' ')
      if pos = s.length ∨ pos < 55 then UpdEv.badline :: updLoop hash rehash rest trip trips
      else
        let ssfShab64 := s.take 43
        let ssfModtime := (s.drop 43).take 8
        let ssfLength := (s.drop 51).take (pos - 51)
        let ssfName := restoreLine (s.drop (pos + 2))
        if trip.name = [] then updDrain trip trips
        else
          let r := if strLtB trip.name ssfName then updNewLoop trip trips ssfName
                   else ([], trip, trips)
          let trip2 := r.2.1
          let trips2 := r.2.2
          if trip2.name = ssfName then
            let ev :=
              if ssfModtime = trip2.modt ∧ ssfLength = trip2.size ∧ rehash = false then
                UpdEv.record 'U' ssfShab64 trip2.modt trip2.size ssfName []
              else
                let shaB64 := hash ssfName
                let flag :=
                  (if ssfModtime ≠ trip2.modt then ['T'] else []) ++
                    (if ssfLength ≠ trip2.size then ['S'] else []) ++
                    (if ssfShab64 ≠ shaB64 then ['H'] else [])
                if flag ≠ [] then UpdEv.record 'C' shaB64 trip2.modt trip2.size ssfName flag
                else UpdEv.record 'V' shaB64 trip2.modt trip2.size ssfName flag
            let nx := getNextTriplex trips2
            r.1 ++ ev :: updLoop hash rehash rest nx.1 nx.2
          else
            let evsD :=
              if ssfName ≠ [] ∧ strLtB ssfName trip2.name then
                [UpdEv.record 'D' [] [] [] ssfName []]
              else []
            r.1 ++ evsD ++ updLoop hash rehash rest trip2 trips2

/-- Go `upd` (cmd/detect.go), classification part: fetch the first live
entry, then run the merge loop over the manifest lines. -/
def upd (hash : Str → Str) (rehash : Bool) (lines : List Str) (live : List Triplex) :
    List UpdEv :=
  let r := getNextTriplex live
  updLoop hash rehash lines r.1 r.2

/-- The counters `(nnew, ndel, nchg, nunc)` the run's events produce:
`writeRecord` increments one per tag (`U` and `V` both count unchanged) and
an invalid manifest line increments `ndel` directly. -/
def updCounters : List UpdEv → Nat × Nat × Nat × Nat
  | [] => (0, 0, 0, 0)
  | e :: rest =>
    let r := updCounters rest
    match e with
    | UpdEv.badline => (r.1, r.2.1 + 1, r.2.2.1, r.2.2.2)
    | UpdEv.record tag _ _ _ _ _ =>
      if tag = 'N' then (r.1 + 1, r.2.1, r.2.2.1, r.2.2.2)
      else if tag = 'D' then (r.1, r.2.1 + 1, r.2.2.1, r.2.2.2)
      else if tag = 'C' then (r.1, r.2.1, r.2.2.1 + 1, r.2.2.2)
      else (r.1, r.2.1, r.2.2.1, r.2.2.2 + 1)

/-- The change count `nnew + ndel + nchg` that drives the exit code and the
overwrite decision. -/
def updChanges (evs : List UpdEv) : Nat :=
  let c := updCounters evs
  c.1 + c.2.1 + c.2.2.1

/-! ### Tree walker (`walkTreeToChannel`, cmd/shared.go and cmd/detect.go)

The walker reads a directory with `os.ReadDir` — which returns the entries
sorted by filename — and, in that order, sends each regular file to the
channel as a triplex and recurses into each subdirectory under
`path.Join(startpath, name)`.  A directory tree is modelled with each
directory's entry list exactly as `os.ReadDir` would deliver it:
`wfList` states that library guarantee (names nonempty, without a slash,
never ".", strictly ascending) and nothing more.  Symbolic links and
unreadable directories, which the source skips, are not modelled. -/

/-- A directory entry: a regular file with its mtime and size, or a
subdirectory with its own `os.ReadDir`-ordered entries. -/
inductive FSEntry where
  | file (name : Str) (modt size : Int)
  | dir (name : Str) (entries : List FSEntry)

/-- The entry's own filename. -/
def FSEntry.name : FSEntry → Str
  | .file n _ _ => n
  | .dir n _ => n

/-- Go `path.Join` on the clean operands the walker produces: joining onto
"" or "." yields the name itself, otherwise a slash is interposed. -/
def pathJoin (p n : Str) : Str :=
  if p = [] then n else if p = ['.'] then n else p ++ '/' :: n

mutual

/-- Go `walkTreeToChannel` (cmd/detect.go) on one directory entry: a
regular file is emitted as `(joined path, modtime, size)`, a directory is
recursed into under the joined path. -/
def walkEntryGo (startpath : Str) : FSEntry → List (Str × Int × Int)
  | .file n m z => [(pathJoin startpath n, m, z)]
  | .dir n sub => walkListGo (pathJoin startpath n) sub

/-- Go `walkTreeToChannel` (cmd/detect.go) over a directory's entries in
`os.ReadDir` order: the files emitted, in emission order. -/
def walkListGo (startpath : Str) : List FSEntry → List (Str × Int × Int)
  | [] => []
  | e :: rest => walkEntryGo startpath e ++ walkListGo startpath rest

end

/-- Validity of a single directory-entry name as the operating system
reports it: nonempty, no path separator, and never the "." entry. -/
def nameOk (n : Str) : Bool := !n.isEmpty && !n.contains '/' && n != ['.']

mutual

/-- Well-formedness of one entry as `os.ReadDir` guarantees it: a valid
name, and recursively well-formed contents for a directory. -/
def wfEntry : FSEntry → Bool
  | .file n _ _ => nameOk n
  | .dir n sub => nameOk n && wfList sub

/-- Well-formedness of a directory's entry list as `os.ReadDir` guarantees
it: every entry well-formed and names strictly ascending. -/
def wfList : List FSEntry → Bool
  | [] => true
  | [e] => wfEntry e
  | e1 :: e2 :: r => wfEntry e1 && strLtB e1.name e2.name && wfList (e2 :: r)

end

mutual

/-- Size measure of an entry, for induction over the walker's recursion. -/
def sizeE : FSEntry → Nat
  | .file _ _ _ => 1
  | .dir _ sub => 1 + sizeL sub

/-- Size measure of an entry list, for induction over the walker's
recursion. -/
def sizeL : List FSEntry → Nat
  | [] => 0
  | e :: r => sizeE e + sizeL r

end

/-- Splitting a path on '/' into its components. -/
def splitOnSlash : Str → List Str
  | [] => [[]]
  | c :: rest =>
    if c = '/' then [] :: splitOnSlash rest
    else
      match splitOnSlash rest with
      | [] => [[c]]
      | comp :: comps => (c :: comp) :: comps

/-- The component list a joined path is built over: empty for the start
path ".", otherwise the slash-separated components. -/
def pfxComps (p : Str) : List Str := if p = ['.'] then [] else splitOnSlash p

/-- Lexicographic strict order on component lists: a proper prefix sorts
first, and the first differing component decides by byte order. -/
def compsLtB : List Str → List Str → Bool
  | [], [] => false
  | [], _ :: _ => true
  | _ :: _, [] => false
  | a :: as, b :: bs => if strLtB a b then true else if a = b then compsLtB as bs else false

/-- Whether a path sequence is strictly ascending in byte order of the
joined paths — the order the claim states. -/
def ascPathsB : List Str → Bool
  | [] => true
  | [_] => true
  | a :: b :: r => strLtB a b && ascPathsB (b :: r)

/-! ### Anonymiser (`ano`, anonymise command)

The anonymiser reads every record's 43-character hash into a Go map (so the
key set is the deduplicated hash list), optionally deletes the well-known
hash of the empty file when `--no-empty` is given, sorts the keys with
`slices.Sorted` and writes one line per key.  `anoDedup` models the map's
key set (insertion-ordered, which the sort then forgets), `sortStrs` the
library sort, and `anoOutput` the written lines. -/

/-- The hash of the empty file (cmd/const.go `emptySHAb64`). -/
def emptySHAb64 : Str := "47DEQpj8HBSa+/TImW+5JCeuQeRkm5NMpJWZG3hSuFU".data

/-- The key set of the Go map `shaMap` after reading `hashes`. -/
def anoDedup (hashes : List Str) : List Str :=
  hashes.foldl (fun acc h => if h ∈ acc then acc else acc ++ [h]) []

/-- Insertion into an ascending list, the step of the library sort. -/
def insertSorted (x : Str) : List Str → List Str
  | [] => [x]
  | y :: ys => if strLtB x y then x :: y :: ys else y :: insertSorted x ys

/-- The model of `slices.Sorted(maps.Keys(...))`: an ascending arrangement
of the given keys. -/
def sortStrs (l : List Str) : List Str := l.foldr insertSorted []

/-- Go `ano` (anonymise): the output lines, given the hashes read from the
input manifest and the `--no-empty` flag. -/
def anoOutput (hashes : List Str) (noempty : Bool) : List Str :=
  let keys := anoDedup hashes
  let keys2 := if noempty then keys.filter (fun k => k != emptySHAb64) else keys
  sortStrs keys2

end Shaman

namespace Shaman

/-- The byte order is irreflexive. -/
theorem strLtB_irrefl (a : Str) : strLtB a a = false := by
  induction a with
  | nil => rfl
  | cons c cs ih => simp [strLtB, lt_irrefl, ih]

/-- Unfolding of the byte order on two nonempty strings. -/
theorem strLtB_cons_iff (x y : Char) (xs ys : Str) :
    strLtB (x :: xs) (y :: ys) = true ↔ x < y ∨ (x = y ∧ strLtB xs ys = true) := by
  rcases lt_trichotomy x y with h | h | h
  · simp [strLtB, h]
  · subst h
    simp [strLtB, lt_irrefl]
  · have h1 : ¬ x < y := lt_asymm h
    have h2 : x ≠ y := ne_of_gt h
    simp [strLtB, h1, h, h2]

/-- The byte order is transitive. -/
theorem strLtB_trans {a b c : Str} (hab : strLtB a b = true) (hbc : strLtB b c = true) :
    strLtB a c = true := by
  induction a generalizing b c with
  | nil =>
    cases b with
    | nil => simp [strLtB] at hab
    | cons y ys =>
      cases c with
      | nil => simp [strLtB] at hbc
      | cons z zs => simp [strLtB]
  | cons x xs ih =>
    cases b with
    | nil => simp [strLtB] at hab
    | cons y ys =>
      cases c with
      | nil => simp [strLtB] at hbc
      | cons z zs =>
        rcases (strLtB_cons_iff x y xs ys).mp hab with h1 | ⟨rfl, h1⟩
        · rcases (strLtB_cons_iff y z ys zs).mp hbc with h2 | ⟨rfl, h2⟩
          · exact (strLtB_cons_iff x z xs zs).mpr (Or.inl (lt_trans h1 h2))
          · exact (strLtB_cons_iff x y xs zs).mpr (Or.inl h1)
        · rcases (strLtB_cons_iff x z ys zs).mp hbc with h2 | ⟨rfl, h2⟩
          · exact (strLtB_cons_iff x z xs zs).mpr (Or.inl h2)
          · exact (strLtB_cons_iff x x xs zs).mpr (Or.inr ⟨rfl, ih h1 h2⟩)

/-- The byte order is total on distinct strings. -/
theorem strLtB_connex {a b : Str} (h : a ≠ b) :
    strLtB a b = true ∨ strLtB b a = true := by
  induction a generalizing b with
  | nil =>
    cases b with
    | nil => exact absurd rfl h
    | cons y ys => exact Or.inl (by simp [strLtB])
  | cons x xs ih =>
    cases b with
    | nil => exact Or.inr (by simp [strLtB])
    | cons y ys =>
      rcases lt_trichotomy x y with hlt | heq | hgt
      · exact Or.inl ((strLtB_cons_iff _ _ _ _).mpr (Or.inl hlt))
      · subst heq
        have hne : xs ≠ ys := fun he => h (by rw [he])
        rcases ih hne with h1 | h1
        · exact Or.inl ((strLtB_cons_iff _ _ _ _).mpr (Or.inr ⟨rfl, h1⟩))
        · exact Or.inr ((strLtB_cons_iff _ _ _ _).mpr (Or.inr ⟨rfl, h1⟩))
      · exact Or.inr ((strLtB_cons_iff _ _ _ _).mpr (Or.inl hgt))

/-- Strings related by the byte order are distinct. -/
theorem strLtB_ne {a b : Str} (h : strLtB a b = true) : a ≠ b := by
  intro he
  subst he
  rw [strLtB_irrefl] at h
  exact Bool.noConfusion h

/-- Membership through `insertSorted`. -/
theorem insertSorted_mem (x y : Str) (l : List Str) :
    y ∈ insertSorted x l ↔ y = x ∨ y ∈ l := by
  induction l with
  | nil => simp [insertSorted]
  | cons z zs ih =>
    by_cases h : strLtB x z = true
    · simp [insertSorted, h]
    · simp only [insertSorted, if_neg h, List.mem_cons, ih]
      tauto

/-- Inserting a fresh key into an ascending list keeps it ascending. -/
theorem insertSorted_pairwise (x : Str) (l : List Str)
    (hl : l.Pairwise (fun a b => strLtB a b = true)) (hx : x ∉ l) :
    (insertSorted x l).Pairwise (fun a b => strLtB a b = true) := by
  induction l with
  | nil => simp [insertSorted]
  | cons y ys ih =>
    rcases List.pairwise_cons.mp hl with ⟨hy, hys⟩
    by_cases h : strLtB x y = true
    · rw [insertSorted, if_pos h]
      refine List.pairwise_cons.mpr ⟨?_, hl⟩
      intro z hz
      rcases List.mem_cons.mp hz with rfl | hz2
      · exact h
      · exact strLtB_trans h (hy z hz2)
    · rw [insertSorted, if_neg h]
      have hxy : x ≠ y := fun he => hx (he ▸ List.mem_cons_self y ys)
      have hyx : strLtB y x = true := by
        rcases strLtB_connex hxy with h1 | h2
        · exact absurd h1 h
        · exact h2
      refine List.pairwise_cons.mpr
        ⟨?_, ih hys (fun hm => hx (List.mem_cons_of_mem _ hm))⟩
      intro z hz
      rcases (insertSorted_mem x z ys).mp hz with rfl | hz2
      · exact hyx
      · exact hy z hz2

/-- The library sort arranges distinct keys ascending, preserving the key
set. -/
theorem sortStrs_spec (l : List Str) (h : l.Nodup) :
    (sortStrs l).Pairwise (fun a b => strLtB a b = true)
    ∧ ∀ y, y ∈ sortStrs l ↔ y ∈ l := by
  induction l with
  | nil => exact ⟨List.Pairwise.nil, fun y => by simp [sortStrs]⟩
  | cons x xs ih =>
    rcases List.nodup_cons.mp h with ⟨hx, hxs⟩
    rcases ih hxs with ⟨hpw, hmem⟩
    have hs : sortStrs (x :: xs) = insertSorted x (sortStrs xs) := rfl
    have hx2 : x ∉ sortStrs xs := fun hm => hx ((hmem x).mp hm)
    constructor
    · rw [hs]
      exact insertSorted_pairwise x _ hpw hx2
    · intro y
      rw [hs, insertSorted_mem, hmem y, List.mem_cons]

/-- The fold building the Go map's key set keeps keys distinct and collects
exactly the keys seen. -/
theorem anoDedup_aux (l : List Str) (acc : List Str) (hacc : acc.Nodup) :
    (l.foldl (fun a h => if h ∈ a then a else a ++ [h]) acc).Nodup
    ∧ ∀ y, y ∈ l.foldl (fun a h => if h ∈ a then a else a ++ [h]) acc ↔
        y ∈ acc ∨ y ∈ l := by
  induction l generalizing acc with
  | nil => exact ⟨hacc, by simp⟩
  | cons h t ih =>
    by_cases hh : h ∈ acc
    · rcases ih acc hacc with ⟨h1, h2⟩
      refine ⟨by simpa [hh] using h1, fun y => ?_⟩
      have := h2 y
      simp only [List.foldl_cons, if_pos hh] at this ⊢
      rw [this]
      constructor
      · rintro (hy | hy)
        · exact Or.inl hy
        · exact Or.inr (List.mem_cons_of_mem _ hy)
      · rintro (hy | hy)
        · exact Or.inl hy
        · rcases List.mem_cons.mp hy with rfl | hy2
          · exact Or.inl hh
          · exact Or.inr hy2
    · have hacc2 : (acc ++ [h]).Nodup := by
        refine List.Nodup.append hacc (List.nodup_singleton h) ?_
        intro a ha hb
        rw [List.mem_singleton] at hb
        subst hb
        exact hh ha
      rcases ih (acc ++ [h]) hacc2 with ⟨h1, h2⟩
      refine ⟨by simpa [hh] using h1, fun y => ?_⟩
      have := h2 y
      simp only [List.foldl_cons, if_neg hh] at this ⊢
      rw [this]
      simp only [List.mem_append, List.mem_singleton, List.mem_cons]
      tauto

/-- C9: the anonymiser's output lists each distinct hash of the input
exactly once (ascending, duplicate-free), and with the no-empty drop
requested the empty-file hash is absent. -/
theorem ano_output_sorted_dedup_noempty (hashes : List Str) (noempty : Bool) :
    (anoOutput hashes noempty).Pairwise (fun a b => strLtB a b = true)
    ∧ (anoOutput hashes noempty).Nodup
    ∧ ∀ h, h ∈ anoOutput hashes noempty ↔
        (h ∈ hashes ∧ (noempty = true → h ≠ emptySHAb64)) := by
  obtain ⟨hnd, hmem⟩ := anoDedup_aux hashes [] List.nodup_nil
  have hmem2 : ∀ y, y ∈ anoDedup hashes ↔ y ∈ hashes := by
    intro y
    rw [show anoDedup hashes = hashes.foldl (fun a h => if h ∈ a then a else a ++ [h]) []
      from rfl, hmem y]
    simp
  cases noempty with
  | false =>
    have hout : anoOutput hashes false = sortStrs (anoDedup hashes) := rfl
    obtain ⟨hpw, hsm⟩ := sortStrs_spec (anoDedup hashes) hnd
    refine ⟨by rw [hout]; exact hpw, ?_, ?_⟩
    · rw [hout]
      exact hpw.imp (fun hr => strLtB_ne hr)
    · intro h
      rw [hout, hsm h, hmem2 h]
      simp
  | true =>
    have hout : anoOutput hashes true =
        sortStrs ((anoDedup hashes).filter (fun k => k != emptySHAb64)) := rfl
    have hndf : ((anoDedup hashes).filter (fun k => k != emptySHAb64)).Nodup :=
      hnd.filter _
    obtain ⟨hpw, hsm⟩ := sortStrs_spec _ hndf
    refine ⟨by rw [hout]; exact hpw, ?_, ?_⟩
    · rw [hout]
      exact hpw.imp (fun hr => strLtB_ne hr)
    · intro h
      rw [hout, hsm h, List.mem_filter]
      rw [hmem2 h]
      simp [bne_iff_ne]

/-- A split never produces the empty component list. -/
theorem splitOnSlash_ne_nil (s : Str) : splitOnSlash s ≠ [] := by
  cases s with
  | nil => simp [splitOnSlash]
  | cons c rest =>
    by_cases h : c = '/'
    · simp [splitOnSlash, h]
    · simp only [splitOnSlash, if_neg h]
      cases hs : splitOnSlash rest with
      | nil => simp
      | cons a b => simp

/-- Splitting distributes over a slash that joins two pieces. -/
theorem splitOnSlash_append (a b : Str) :
    splitOnSlash (a ++ '/' :: b) = splitOnSlash a ++ splitOnSlash b := by
  induction a with
  | nil => simp [splitOnSlash]
  | cons c cs ih =>
    by_cases h : c = '/'
    · subst h
      simp [splitOnSlash, ih]
    · have hne := splitOnSlash_ne_nil cs
      cases hs : splitOnSlash cs with
      | nil => exact absurd hs hne
      | cons comp comps =>
        simp only [List.cons_append, splitOnSlash, if_neg h, List.append_eq]
        rw [ih, hs, List.cons_append]
        rfl

/-- A slash-free string is a single component. -/
theorem splitOnSlash_no_slash {n : Str} (h : '/' ∉ n) : splitOnSlash n = [n] := by
  induction n with
  | nil => rfl
  | cons c cs ih =>
    have hc : ¬ c = '/' := fun he => h (he ▸ List.mem_cons_self c cs)
    have hcs : '/' ∉ cs := fun hm => h (List.mem_cons_of_mem _ hm)
    simp only [splitOnSlash, if_neg hc, ih hcs]

/-- Valid entry names unpacked. -/
theorem nameOk_spec {n : Str} (h : nameOk n = true) : n ≠ [] ∧ '/' ∉ n ∧ n ≠ ['.'] := by
  simp [nameOk] at h
  exact ⟨h.1.1, h.1.2, h.2⟩

/-- Joining a nonempty name yields a nonempty path. -/
theorem pathJoin_ne_nil {p n : Str} (hn : n ≠ []) : pathJoin p n ≠ [] := by
  by_cases h1 : p = []
  · simpa [pathJoin, h1] using hn
  · by_cases h2 : p = ['.']
    · simpa [pathJoin, h1, h2] using hn
    · simp [pathJoin, h1, h2]

/-- Joining a name other than "." never yields the path ".". -/
theorem pathJoin_ne_dot {p n : Str} (hp : p ≠ []) (hn3 : n ≠ ['.']) :
    pathJoin p n ≠ ['.'] := by
  by_cases h2 : p = ['.']
  · simpa [pathJoin, hp, h2] using hn3
  · simp only [pathJoin, if_neg hp, if_neg h2]
    intro he
    have hp' : 0 < p.length := List.length_pos.mpr hp
    have hlen := congrArg List.length he
    simp at hlen
    omega

/-- Splitting a joined path appends the name as one fresh component. -/
theorem splitOnSlash_pathJoin {p n : Str} (hp : p ≠ []) (hs : '/' ∉ n) :
    splitOnSlash (pathJoin p n) = pfxComps p ++ [n] := by
  by_cases h2 : p = ['.']
  · subst h2
    simp [pathJoin, pfxComps, splitOnSlash_no_slash hs]
  · rw [pfxComps, if_neg h2]
    simp only [pathJoin, if_neg hp, if_neg h2]
    rw [splitOnSlash_append, splitOnSlash_no_slash hs]

/-- The component list of a joined path extends the start path's by the
name. -/
theorem pfxComps_pathJoin {p n : Str} (hp : p ≠ []) (hn : nameOk n = true) :
    pfxComps (pathJoin p n) = pfxComps p ++ [n] := by
  obtain ⟨hn1, hn2, hn3⟩ := nameOk_spec hn
  rw [pfxComps, if_neg (pathJoin_ne_dot hp hn3)]
  exact splitOnSlash_pathJoin hp hn2

/-- Component order ignores a shared leading component list. -/
theorem compsLtB_append_same (c x y : List Str) :
    compsLtB (c ++ x) (c ++ y) = compsLtB x y := by
  induction c with
  | nil => rfl
  | cons a as ih => simp [compsLtB, strLtB_irrefl, ih]

/-- A byte-order head decides the component order. -/
theorem compsLtB_head {n m : Str} (r s : List Str) (h : strLtB n m = true) :
    compsLtB (n :: r) (m :: s) = true := by
  simp [compsLtB, h]

/-- A well-formed entry list gives a well-formed head, a well-formed tail,
and a head name strictly below every later name. -/
theorem wfList_cons : ∀ (e : FSEntry) (rest : List FSEntry), wfList (e :: rest) = true →
    wfEntry e = true ∧ wfList rest = true ∧ ∀ f ∈ rest, strLtB e.name f.name = true := by
  intro e rest
  induction rest generalizing e with
  | nil => exact fun h => ⟨h, rfl, by simp⟩
  | cons e2 r ih =>
    intro h
    rw [wfList, Bool.and_eq_true, Bool.and_eq_true] at h
    obtain ⟨⟨hwe, hlt12⟩, hw2⟩ := h
    obtain ⟨hwe2, hwr, hall⟩ := ih e2 hw2
    refine ⟨hwe, hw2, ?_⟩
    intro f hf
    rcases List.mem_cons.mp hf with rfl | hf2
    · exact hlt12
    · exact strLtB_trans hlt12 (hall f hf2)

/-- Every entry has positive size. -/
theorem sizeE_pos (e : FSEntry) : 1 ≤ sizeE e := by
  cases e <;> simp [sizeE]

/-- Main walker invariant, by strong induction on the tree size: from a
nonempty start path, over well-formed entries, the emitted paths are
strictly ascending in componentwise lexicographic order, and each carries
the start path's components followed by the component chain of the entry
it came from. -/
theorem walkMain (n : Nat) : ∀ (pfx : Str) (entries : List FSEntry),
    sizeL entries ≤ n → pfx ≠ [] → wfList entries = true →
    ((walkListGo pfx entries).map (fun t => t.1)).Pairwise
        (fun a b => compsLtB (splitOnSlash a) (splitOnSlash b) = true)
    ∧ ∀ p ∈ (walkListGo pfx entries).map (fun t => t.1),
        ∃ e, e ∈ entries ∧ ∃ r, splitOnSlash p = pfxComps pfx ++ e.name :: r := by
  induction n using Nat.strong_induction_on with
  | _ n ih =>
    intro pfx entries hsize hpfx hwf
    cases entries with
    | nil => exact ⟨by simp [walkListGo], by simp [walkListGo]⟩
    | cons e rest =>
      obtain ⟨hwfe, hwfr, hall⟩ := wfList_cons e rest hwf
      have hse := sizeE_pos e
      have hsz : sizeE e + sizeL rest ≤ n := by
        have heq : sizeL (e :: rest) = sizeE e + sizeL rest := rfl
        rw [heq] at hsize
        exact hsize
      have hrlt : sizeL rest < n := by omega
      obtain ⟨hPWr, hSHr⟩ := ih (sizeL rest) hrlt pfx rest le_rfl hpfx hwfr
      have hEntry :
          ((walkEntryGo pfx e).map (fun t => t.1)).Pairwise
              (fun a b => compsLtB (splitOnSlash a) (splitOnSlash b) = true)
          ∧ ∀ p ∈ (walkEntryGo pfx e).map (fun t => t.1),
              ∃ r, splitOnSlash p = pfxComps pfx ++ e.name :: r := by
        cases e with
        | file nm m z =>
          obtain ⟨h1, h2, h3⟩ := nameOk_spec (by simpa [wfEntry] using hwfe)
          constructor
          · simp [walkEntryGo]
          · intro p hp
            simp [walkEntryGo] at hp
            subst hp
            refine ⟨[], ?_⟩
            rw [splitOnSlash_pathJoin hpfx h2]
            rfl
        | dir nm sub =>
          have hand : nameOk nm = true ∧ wfList sub = true := by
            simpa [wfEntry, Bool.and_eq_true] using hwfe
          obtain ⟨hnm, hwfs⟩ := hand
          obtain ⟨h1, h2, h3⟩ := nameOk_spec hnm
          have hjoin_ne : pathJoin pfx nm ≠ [] := pathJoin_ne_nil h1
          have hslt : sizeL sub < n := by
            have heq : sizeE (FSEntry.dir nm sub) = 1 + sizeL sub := rfl
            omega
          obtain ⟨hPWs, hSHs⟩ :=
            ih (sizeL sub) hslt (pathJoin pfx nm) sub le_rfl hjoin_ne hwfs
          constructor
          · simpa [walkEntryGo] using hPWs
          · intro p hp
            rw [show walkEntryGo pfx (FSEntry.dir nm sub)
                = walkListGo (pathJoin pfx nm) sub from rfl] at hp
            obtain ⟨e2, he2, r2, hsp⟩ := hSHs p hp
            rw [pfxComps_pathJoin hpfx hnm] at hsp
            refine ⟨e2.name :: r2, ?_⟩
            rw [hsp]
            simp [FSEntry.name]
      obtain ⟨hPWe, hSHe⟩ := hEntry
      constructor
      · rw [show walkListGo pfx (e :: rest) = walkEntryGo pfx e ++ walkListGo pfx rest
            from rfl, List.map_append, List.pairwise_append]
        refine ⟨hPWe, hPWr, ?_⟩
        intro a ha b hb
        obtain ⟨ra, hra⟩ := hSHe a ha
        obtain ⟨f, hf, rb, hrb⟩ := hSHr b hb
        rw [hra, hrb, compsLtB_append_same]
        exact compsLtB_head _ _ (hall f hf)
      · intro p hp
        rw [show walkListGo pfx (e :: rest) = walkEntryGo pfx e ++ walkListGo pfx rest
            from rfl, List.map_append, List.mem_append] at hp
        rcases hp with hp | hp
        · obtain ⟨r, hr⟩ := hSHe p hp
          exact ⟨e, List.mem_cons_self e rest, r, hr⟩
        · obtain ⟨f, hf, r, hr⟩ := hSHr p hp
          exact ⟨f, List.mem_cons_of_mem e hf, r, hr⟩

/-- C5 counterexample: the tree holding the directory "a" (with one file
"z") next to the file "a.txt" is well-formed — `os.ReadDir` sorts "a"
before "a.txt" — yet the walker emits "a/z" before "a.txt", and since '.'
sorts below '/', the emission is not ascending in byte order of the joined
paths. -/
theorem walker_not_globally_byte_ordered :
    wfList [FSEntry.dir "a".data [FSEntry.file "z".data 0 0],
        FSEntry.file "a.txt".data 0 0] = true
    ∧ (walkListGo ['.'] [FSEntry.dir "a".data [FSEntry.file "z".data 0 0],
        FSEntry.file "a.txt".data 0 0]).map (fun t => t.1)
      = ["a/z".data, "a.txt".data]
    ∧ ascPathsB ["a/z".data, "a.txt".data] = false := by
  refine ⟨rfl, rfl, rfl⟩

/-- C5 amended: from the default start path ".", over any tree whose
directories hold their entries as `os.ReadDir` delivers them (names valid
and strictly ascending per directory), the walker emits paths strictly
ascending in lexicographic order over the path's component list — the
depth-first order the merge-join actually receives.  This coincides with
byte order of the joined paths unless a file name extends a sibling
directory's name with a byte below '/' (see the counterexample). -/
theorem walker_emits_componentwise_ascending (entries : List FSEntry)
    (hwf : wfList entries = true) :
    ((walkListGo ['.'] entries).map (fun t => t.1)).Pairwise
      (fun a b => compsLtB (splitOnSlash a) (splitOnSlash b) = true) :=
  (walkMain (sizeL entries) ['.'] entries le_rfl (by decide) hwf).1

/-- C5 witness: the amended order holds on the counterexample's tree. -/
theorem walker_emits_componentwise_ascending_witness :
    ((walkListGo ['.'] [FSEntry.dir "a".data [FSEntry.file "z".data 0 0],
        FSEntry.file "a.txt".data 0 0]).map (fun t => t.1)).Pairwise
      (fun a b => compsLtB (splitOnSlash a) (splitOnSlash b) = true) :=
  walker_emits_componentwise_ascending
    [FSEntry.dir "a".data [FSEntry.file "z".data 0 0],
     FSEntry.file "a.txt".data 0 0] (by decide)

/-- C1: a path consisting of the single control byte 0x01 does not survive
the encode-then-decode round trip: `storeLine` emits the four characters of
the backslash-x escape and `restoreLine` (which only reverses 0x0a, 0x0c,
0x0d and the doubled backslash) hands them back verbatim instead of the
original byte.  The source itself marks the pair as incomplete
("THIS IS NOT WORKING", "*FIXME*"), so the identity the specification
states is the documented intent and this is a defect of the code. -/
theorem storeLine_restoreLine_not_identity_at_x01 :
    restoreLine (storeLine [Char.ofNat 1]) = ['\\', 'x', '0', '1']
    ∧ restoreLine (storeLine [Char.ofNat 1]) ≠ [Char.ofNat 1] := by
  constructor
  · rfl
  · decide

/-- C2: manifest records remaining when the live stream is exhausted are
not classified `D`.  First run: a manifest holding one record for path "b"
against an empty live tree classifies nothing at all (the step-1/5 `break`
skips the record), and the change count is 0, so an overwrite run would
even keep the stale manifest.  Second run: with records for "a" and "b" and
a live tree holding only "a" with a changed mtime, the run classifies
exactly the `C` record for "a" with flag "T" — record "b" is again dropped
without a `D`.  The specification's drain step ("remaining manifest records
become D") is the documented intent; the loop's early `break` loses them. -/
theorem upd_drops_deleted_records_at_live_exhaustion :
    upd (fun _ => List.replicate 43 'A') false
        [List.replicate 43 'B' ++ "000000010004 :b".data] [] = []
    ∧ updChanges (upd (fun _ => List.replicate 43 'A') false
        [List.replicate 43 'B' ++ "000000010004 :b".data] []) = 0
    ∧ upd (fun _ => List.replicate 43 'A') false
        [List.replicate 43 'A' ++ "000000010004 :a".data,
         List.replicate 43 'B' ++ "000000010004 :b".data]
        [⟨"a".data, "00000002".data, "0004".data⟩]
      = [UpdEv.record 'C' (List.replicate 43 'A') "00000002".data "0004".data "a".data ['T']] := by
  refine ⟨rfl, rfl, ?_⟩
  rfl

/-- C4: consolidating at format 2 does not apply the 1980 threshold the
command's own help text documents.  For a hash seen with modtimes
`20000000` (valid) and `00000001` (before 1980, hence suspect), the stored
value is the plain lexicographic minimum `00000001`, which lies below
`0x12ceec80`, although the non-suspect candidate `20000000` exists —
contradicting the stated earliest-valid-modtime semantics. -/
theorem ssfCollectRead_ignores_1980_threshold :
    ssfCollectRead 2
        [List.replicate 43 'A' ++ "200000000004 :x".data,
         List.replicate 43 'A' ++ "000000010004 :y".data]
      = [(List.replicate 43 'A', "00000001".data)]
    ∧ strLtB "00000001".data modtime1980 = true := by
  constructor
  · rfl
  · decide

/-- C10: any manifest filename shorter than 5 characters or not ending in
".ssf", anywhere in a verb's argument list, makes `getSSFs` abort with exit
code 6; no manifest content is read on the way (the model's `fs` is only
the existence probe the source performs). -/
theorem getSSFs_aborts_with_6_on_bad_name (fs : Str → Bool) (flist : List Str) (fn : Str)
    (hmem : fn ∈ flist)
    (hbad : fn.length < 5 ∨ fn.drop (fn.length - 4) ≠ dotSSF) :
    getSSFs fs flist = Except.error 6 := by
  induction flist with
  | nil => cases hmem
  | cons a rest ih =>
    by_cases h5 : a.length < 5
    · simp [getSSFs, h5]
    · by_cases h4 : a.drop (a.length - 4) = dotSSF
      · have hfn : fn ∈ rest := by
          rcases List.mem_cons.mp hmem with rfl | h
          · rcases hbad with hb | hb
            · exact absurd hb h5
            · exact absurd h4 hb
          · exact h
        have hr := ih hfn
        simp [getSSFs, h5, h4, hr]
      · simp [getSSFs, h5, h4]

/-- C10 witness: the name "list.txt" does not end in ".ssf", so `getSSFs`
aborts with exit code 6 on it. -/
theorem getSSFs_aborts_with_6_on_bad_name_witness :
    getSSFs (fun _ => true) ["list.txt".data] = Except.error 6 :=
  getSSFs_aborts_with_6_on_bad_name (fun _ => true) ["list.txt".data] "list.txt".data
    (by decide) (by decide)

/-- C6 counterexample: an event of unknown kind ("CLOSE") and the loss of
the event stream both make `watchLoop` call `abort(1, ...)` — a process
exit — not a transition to the detected state; the dispatch consults no
configuration, so this holds with or without a health endpoint. -/
theorem watchLoop_unknown_event_exits_not_detects :
    watchLoopStep (WatchMsg.fsEvent "CLOSE".data "f.txt".data) = DetAction.abortRun 1
    ∧ watchLoopStep WatchMsg.eventsClosed = DetAction.abortRun 1
    ∧ DetAction.abortRun 1 ≠ DetAction.setDetected := by
  refine ⟨by decide, rfl, by decide⟩

/-- C6 amended: an unknown event kind or the loss of the event stream makes
the monitor worker abort the process with exit code 1 (a fail-fast exit the
source labels "failsafe"), in every configuration; the transition to the
detected state is what `detectTriggered` does, and only when a health-check
port is configured (without one it aborts with exit code 2). -/
theorem watchLoop_failsafe_behaviour (op name : Str) (cliCheck : Nat) :
    (op ∉ ["CREATE".data, "WRITE".data, "CHMOD".data, "REMOVE".data, "RENAME".data] →
        watchLoopStep (WatchMsg.fsEvent op name) = DetAction.abortRun 1)
    ∧ watchLoopStep WatchMsg.eventsClosed = DetAction.abortRun 1
    ∧ detectTriggered 0 = DetAction.abortRun 2
    ∧ (cliCheck ≠ 0 → detectTriggered cliCheck = DetAction.setDetected) := by
  refine ⟨?_, rfl, rfl, ?_⟩
  · intro hop
    simp only [List.mem_cons, List.not_mem_nil, or_false, not_or] at hop
    obtain ⟨h1, h2, h3, h4, h5⟩ := hop
    simp [watchLoopStep, h1, h2, h3, h4, h5]
  · intro hc
    simp [detectTriggered, hc]

/-- C8: when the file cannot be opened (or read), `getFileSha256` converts
the still-nil byte slice to the `[32]byte` array type and panics, so the
error value never reaches the caller; the source's own comment expects the
branch to return the error ("may happen (permissions lock)"). -/
theorem getFileSha256_panics_on_open_failure :
    getFileSha256 (fun _ => List.replicate 32 0) (fun _ => none) "locked.bin".data
      = GoRes.panicked "cannot convert slice to array".data := by
  rfl

/-- C3: with overwrite requested the update writes to the input name plus
".temp"; after the flush, zero classified changes discard the temporary and
perform no operation on the original manifest at all, while a non-zero
count unlinks the original, renames the temporary over it and exits 1. -/
theorem upd_overwrite_atomic_replace (fnr second : Str) (g d : Bool) (n : Nat) :
    updOutputName 1 true fnr second = some (fnr ++ tempSuffix)
    ∧ updFinish fnr (fnr ++ tempSuffix) true true g d 0 =
        [FileOp.flush, FileOp.removeFile (fnr ++ tempSuffix), FileOp.exitProc 0]
    ∧ touchesFile (updFinish fnr (fnr ++ tempSuffix) true true g d 0) fnr = false
    ∧ (0 < n → updFinish fnr (fnr ++ tempSuffix) true true g d n =
        [FileOp.flush, FileOp.removeFile fnr,
         FileOp.renameFile (fnr ++ tempSuffix) fnr, FileOp.exitProc 1]) := by
  have hne : ((fnr ++ tempSuffix : Str) == fnr) = false := by
    rw [beq_eq_false_iff_ne]
    intro h
    have hlen := congrArg List.length h
    simp [tempSuffix] at hlen
  refine ⟨by simp [updOutputName], by simp [updFinish], ?_, ?_⟩
  · simp [updFinish, touchesFile, hne]
  · intro hn
    have h0 : ¬ n = 0 := by omega
    simp [updFinish, h0, hn]

/-- C3 witness: at the input name "m.ssf" the three shapes hold, at zero
changes and at one change. -/
theorem upd_overwrite_atomic_replace_witness :
    updFinish "m.ssf".data ("m.ssf".data ++ tempSuffix) true true false false 1 =
      [FileOp.flush, FileOp.removeFile "m.ssf".data,
       FileOp.renameFile ("m.ssf".data ++ tempSuffix) "m.ssf".data, FileOp.exitProc 1] :=
  (upd_overwrite_atomic_replace "m.ssf".data "x.ssf".data false false 1).2.2.2 (by decide)

/-- C7 counterexample: in two-file mode (writing to a second manifest, no
overwrite), a run that classified one change still exits with code 0 — the
claimed exit-1-on-any-change policy does not hold regardless of output
mode. -/
theorem upd_two_file_mode_exits_zero_despite_change :
    exitCodeOf (updFinish "a.ssf".data "b.ssf".data true false false false 1) = 0
    ∧ exitCodeOf (updFinish "a.ssf".data "b.ssf".data true false false false 1) ≠ 1 := by
  refine ⟨rfl, by decide⟩

/-- C7 amended: the update exits 1 exactly when overwrite is requested and
at least one change was classified; a dry run, a two-file run, and an
overwrite run with no changes all exit 0. -/
theorem upd_exit_code_policy (fnr fnw : Str) (g d : Bool) (n : Nat) :
    exitCodeOf (updFinish fnr fnw false false g d n) = 0
    ∧ exitCodeOf (updFinish fnr fnw true false g d n) = 0
    ∧ exitCodeOf (updFinish fnr fnw true true g d 0) = 0
    ∧ (0 < n → exitCodeOf (updFinish fnr fnw true true g d n) = 1) := by
  refine ⟨by simp [updFinish, exitCodeOf], by simp [updFinish, exitCodeOf],
    by simp [updFinish, exitCodeOf], ?_⟩
  intro hn
  have h0 : ¬ n = 0 := by omega
  simp [updFinish, h0, hn, exitCodeOf]

end Shaman
